import Mathlib

/-!
Shallow embedding of `src/github_analyzer.py` (GitHub profile analyzer).

Conventions of the embedding:
* Python exceptions are modelled by `Except PyError`; a `ValueError` carries its
  message, a `NameError` records the undefined global name, an
  `UnboundLocalError` records the unbound local name, and a `GithubException`
  carries its HTTP status.
* Python strings are Lean `String`s; `datetime` values are integer epoch
  seconds (`Int`) and `.date()` is modelled as Euclidean (floor) division by
  86400, the number of seconds per day.
* Python `dict`s that are built incrementally are modelled as association
  lists in insertion order (a key is updated in place when present, appended
  when new), matching CPython's ordered-dict semantics.
* Python's stable `sorted` is modelled by a stable insertion sort.
-/

/-- The kinds of Python exceptions the program can raise or handle. -/
inductive PyError where
  | valueError (msg : String)
  | nameError (name : String)
  | unboundLocal (name : String)
  | githubExc (status : Nat)
deriving DecidableEq, Repr

/-- Python whitespace characters stripped by `str.strip()` (ASCII subset). -/
def isPySpace (c : Char) : Bool :=
  c = ' ' || c = '\t' || c = '\n' || c = '\r' || c = '\x0b' || c = '\x0c'

/-- `str.strip()`: drop leading and trailing whitespace. -/
def pyStrip (s : String) : String :=
  ⟨((s.toList.dropWhile isPySpace).reverse.dropWhile isPySpace).reverse⟩

/-- The character class `[a-zA-Z0-9_-]` of the URL regex at line 249. -/
def isIdentChar (c : Char) : Bool :=
  ('a' ≤ c && c ≤ 'z') || ('A' ≤ c && c ≤ 'Z') || ('0' ≤ c && c ≤ '9')
    || c = '_' || c = '-'

/-- Strip a literal character sequence from the front of the input, returning
the rest on success (the regex engine's handling of literal atoms). -/
def stripLit : List Char → List Char → Option (List Char)
  | [], cs => some cs
  | _ :: _, [] => none
  | p :: ps, c :: cs => if c = p then stripLit ps cs else none

/-- The `$` anchor of Python `re` (no `MULTILINE`): it matches at the end of
the string, or just before a single final newline. -/
def matchDollar (cs : List Char) : Bool :=
  cs == [] || cs == ['\n']

/-- The regex suffix `/?$`: an optional slash, then the end anchor.  The
identifier class does not contain a slash or a newline, so the greedy
interpretation is exact (no backtracking ever helps). -/
def matchSlashDollar : List Char → Bool
  | [] => matchDollar []
  | c :: cs => if c = '/' then matchDollar cs else matchDollar (c :: cs)

/-- Continuation of `[a-zA-Z0-9_-]+/?$` after its mandatory first character:
consume further identifier characters greedily, then match `/?$`. -/
def matchIdentRest : List Char → Bool
  | [] => true
  | c :: cs => if isIdentChar c then matchIdentRest cs else matchSlashDollar (c :: cs)

/-- The regex fragment `[a-zA-Z0-9_-]+/?$`. -/
def matchIdentPlus : List Char → Bool
  | [] => false
  | c :: cs => isIdentChar c && matchIdentRest cs

/-- The full pattern `^https?://(www\.)?github\.com/[a-zA-Z0-9_-]+/?$` from
`validate_github_url` (line 249).  `https?://` expands to exactly the two
literals tried below, and each optional group is followed by a literal with a
different first character, so the deterministic reading equals the regex. -/
def matchGithubUrl (cs : List Char) : Bool :=
  let afterScheme : Option (List Char) :=
    match stripLit ("https://".toList) cs with
    | some r => some r
    | none => stripLit ("http://".toList) cs
  match afterScheme with
  | none => false
  | some r1 =>
    let r2 : List Char :=
      match stripLit ("www.".toList) r1 with
      | some r => r
      | none => r1
    match stripLit ("github.com/".toList) r2 with
    | none => false
    | some r3 => matchIdentPlus r3

/-- `validate_github_url` (lines 243-252): reject the empty string, reject
anything the regex refuses, and return `url.strip()` on success. -/
def validate_github_url (url : String) : Except PyError String :=
  if url = "" then .error (.valueError "URL cannot be empty")
  else if matchGithubUrl url.toList then .ok (pyStrip url)
  else .error (.valueError "Invalid GitHub URL format")

/-- The canonical shape of the strings accepted by the regex: a scheme, an
optional `www.` prefix, the literal host `github.com/`, a nonempty run of
identifier characters, and one of the four endings the `/?$` suffix allows
(the newline endings come from Python's `$` anchor). -/
def CanonicalGithubUrl (cs : List Char) : Prop :=
  ∃ s w : Bool, ∃ u e : List Char,
    u ≠ [] ∧ (∀ c ∈ u, isIdentChar c = true) ∧
    e ∈ ([[], ['\n'], ['/'], ['/', '\n']] : List (List Char)) ∧
    cs = (if s then "https://".toList else "http://".toList)
      ++ (if w then "www.".toList else [])
      ++ "github.com/".toList ++ u ++ e

/-- One repository as exposed by the fetcher boundary: `repo.name`,
`repo.stargazers_count`, `repo.forks_count`, and `repo.get_languages()`
(a mapping from language name to byte count, modelled as an association
list in iteration order; a Python dict has pairwise distinct keys). -/
structure Repo where
  name : String
  stargazers_count : Nat
  forks_count : Nat
  languages : List (String × Nat)
deriving DecidableEq, Repr

/-- The `basic_info` dictionary collected at lines 267-274. -/
structure BasicInfo where
  username : String
  repo_count : Nat
  followers : Nat
  following : Nat
  created_at : String
  last_active : String
deriving DecidableEq, Repr

/-- The intermediate entry appended to the `repo_languages` list at
lines 306-311. -/
structure RepoLangEntry where
  name : String
  language : String
  stars : Nat
  forks : Nat
deriving DecidableEq, Repr

/-- The `analysis_results` dictionary assembled at lines 328-337
(the `**basic_info` merge flattens the basic fields in). -/
structure ProfileSummary where
  username : String
  repo_count : Nat
  followers : Nat
  following : Nat
  created_at : String
  last_active : String
  total_stars : Nat
  top_languages : List String
  avg_stars_per_repo : ℚ
  most_starred_repo : Option String
  repo_languages : List (String × Nat)
  activity_dates : List Int
  activity_counts : List Nat
deriving DecidableEq, Repr

/-- `d[k] = d.get(k, 0) + n` on an insertion-ordered dict: update the key in
place when present, append it when new. -/
def bumpAssoc {κ : Type} [DecidableEq κ] : List (κ × Nat) → κ → Nat → List (κ × Nat)
  | [], k, n => [(k, n)]
  | (k', v) :: rest, k, n =>
    if k' = k then (k', v + n) :: rest else (k', v) :: bumpAssoc rest k n

/-- `d.get(k, 0)` / `counter[k]` on an association list. -/
def lookupD {κ : Type} [DecidableEq κ] : List (κ × Nat) → κ → Nat
  | [], _ => 0
  | (k', v) :: rest, k => if k' = k then v else lookupD rest k

/-- Seconds per day; `.date()` on an epoch-seconds timestamp is modelled as
flooring division by this constant. -/
def dayOf (t : Int) : Int := Int.ediv t 86400

/-- The event loop at lines 290-292: count, per calendar date, the events
whose timestamp is strictly newer than `now - timedelta(days=30)`
(the code reads `datetime.now()`; the embedding threads it as `now`). -/
def event_counter (events : List Int) (now : Int) : List (Int × Nat) :=
  events.foldl
    (fun acc t => if now - 30 * 86400 < t then bumpAssoc acc (dayOf t) 1 else acc) []

/-- `activity_dates = [str(date) for date in sorted(event_counts.keys())]`
(line 294), with dates kept as day numbers. -/
def activity_dates_of (events : List Int) (now : Int) : List Int :=
  List.insertionSort (· ≤ ·) ((event_counter events now).map Prod.fst)

/-- `activity_counts = [event_counts[date] for date in sorted(...)]`
(line 295). -/
def activity_counts_of (events : List Int) (now : Int) : List Nat :=
  (activity_dates_of events now).map (lookupD (event_counter events now))

/-- The running state of the repository loop at lines 297-311. -/
structure RepoAcc where
  total_stars : Nat
  max_stars : Nat
  most_starred_repo : Option String
  languages : List (String × Nat)
  repo_languages : List RepoLangEntry
deriving Repr

/-- One iteration of the repository loop (lines 297-311): add the stars,
update the running maximum on a strict improvement, and fold every
`(lang, bytes_count)` pair of `repo.get_languages()` into the byte totals
while appending a `repo_languages` entry. -/
def repoStep (acc : RepoAcc) (repo : Repo) : RepoAcc :=
  let p := repo.languages.foldl
    (fun (p : List (String × Nat) × List RepoLangEntry) lb =>
      (bumpAssoc p.1 lb.1 lb.2,
       p.2 ++ [⟨repo.name, lb.1, repo.stargazers_count, repo.forks_count⟩]))
    (acc.languages, acc.repo_languages)
  { total_stars := acc.total_stars + repo.stargazers_count
    max_stars :=
      if acc.max_stars < repo.stargazers_count then repo.stargazers_count
      else acc.max_stars
    most_starred_repo :=
      if acc.max_stars < repo.stargazers_count then some repo.name
      else acc.most_starred_repo
    languages := p.1
    repo_languages := p.2 }

/-- The repository loop run from the initial values of lines 278-284. -/
def runRepoLoop (repos : List Repo) : RepoAcc :=
  repos.foldl repoStep ⟨0, 0, none, [], []⟩

/-- `avg_stars_per_repo` (line 314): true division when
`basic_info['repo_count'] > 0`, else `0`; the float is modelled exactly
as a rational. -/
def avg_stars_per_repo_of (repos : List Repo) (repo_count : Nat) : ℚ :=
  if 0 < repo_count then ((runRepoLoop repos).total_stars : ℚ) / (repo_count : ℚ)
  else 0

/-- Stable insertion (after all earlier elements with a byte total at least as
large) used to model Python's stable `sorted(..., reverse=True)`. -/
def insertByBytes (x : String × Nat) : List (String × Nat) → List (String × Nat)
  | [] => [x]
  | y :: ys => if x.2 ≤ y.2 then y :: insertByBytes x ys else x :: y :: ys

/-- Stable descending sort by byte total, the unique output of
`sorted(languages.items(), key=lambda x: x[1], reverse=True)` (line 317). -/
def sortByBytesDesc (l : List (String × Nat)) : List (String × Nat) :=
  l.foldl (fun acc x => insertByBytes x acc) []

/-- `top_languages` (lines 317-318): the first five languages in stable
descending byte order. -/
def top_languages_of (repos : List Repo) : List String :=
  ((sortByBytesDesc (runRepoLoop repos).languages).take 5).map Prod.fst

/-- The grouping loop at lines 321-326: count the `repo_languages` entries per
language and return the language/count pairs. -/
def language_counts_of (repos : List Repo) : List (String × Nat) :=
  (runRepoLoop repos).repo_languages.foldl (fun acc e => bumpAssoc acc e.language 1) []

/-- The aggregation pipeline of `analyze_github_profile` (lines 267-337),
given the fetched data: the body that assembles `analysis_results`. -/
def buildSummary (basic : BasicInfo) (repos : List Repo) (events : List Int)
    (now : Int) : ProfileSummary :=
  { username := basic.username
    repo_count := basic.repo_count
    followers := basic.followers
    following := basic.following
    created_at := basic.created_at
    last_active := basic.last_active
    total_stars := (runRepoLoop repos).total_stars
    top_languages := top_languages_of repos
    avg_stars_per_repo := avg_stars_per_repo_of repos basic.repo_count
    most_starred_repo := (runRepoLoop repos).most_starred_repo
    repo_languages := language_counts_of repos
    activity_dates := activity_dates_of events now
    activity_counts := activity_counts_of events now }

/-- `str(e)` as used when a handler interpolates the caught exception. -/
def pyErrorMessage : PyError → String
  | .valueError m => m
  | .nameError n => "name " ++ n ++ " is not defined"
  | .unboundLocal n => "local variable " ++ n ++ " referenced before assignment"
  | .githubExc s => toString s

/-- The `try` body of `analyze_github_profile` (lines 257-260).  An error
carries, besides the exception, the value of the local `username` if it was
bound when the exception was raised (`none` = unbound).  Line 260 calls
`extract_username_from_url`, a name that is not defined anywhere in the
module, so Python raises `NameError` there before `username` is ever bound;
the rest of the body (lines 262-339) is unreachable and its aggregation
logic is embedded separately as `buildSummary` above. -/
def analyze_try_body (github_url : String) :
    Except (PyError × Option String) ProfileSummary :=
  match validate_github_url github_url with
  | .error e => .error (e, none)
  | .ok _ => .error (.nameError "extract_username_from_url", none)

/-- The two `except` blocks at lines 341-351.  Both handlers interpolate the
local `username` into a log line before re-raising; if `username` is unbound
at that point, the handler itself raises `UnboundLocalError`, which escapes
(an exception raised inside an `except` block is not caught by the following
clauses of the same `try`). -/
def analyze_handle_error : PyError × Option String → PyError
  | (_, none) => .unboundLocal "username"
  | (.githubExc 404, some _) => .valueError "GitHub profile not found"
  | (.githubExc 403, some _) =>
    .valueError "API rate limit exceeded or authentication required"
  | (.githubExc s, some _) => .valueError ("GitHub API error: " ++ toString s)
  | (e, some _) =>
    .valueError ("An unexpected error occurred: " ++ pyErrorMessage e)

/-- `analyze_github_profile` (lines 254-351): the `try` body wrapped by the
exception handlers. -/
def analyze_github_profile (github_url : String) : Except PyError ProfileSummary :=
  match analyze_try_body github_url with
  | .ok r => .ok r
  | .error es => .error (analyze_handle_error es)

/-- A JSON response of the `/analyze` endpoint: a payload or an error string,
each with its HTTP status. -/
inductive RouteResponse where
  | ok (s : ProfileSummary) (status : Nat)
  | err (msg : String) (status : Nat)
deriving DecidableEq, Repr

/-- The `/analyze` endpoint (lines 358-374): a missing or falsy URL yields a
400, a `ValueError` from `analyze_github_profile` yields its message with a
400, any other exception yields the generic 500 response. -/
def analyze_route (github_url : Option String) : RouteResponse :=
  match github_url with
  | none => .err "GitHub URL is required" 400
  | some url =>
    if url = "" then .err "GitHub URL is required" 400
    else
      match analyze_github_profile url with
      | .ok s => .ok s 200
      | .error (.valueError m) => .err m 400
      | .error _ => .err "An unexpected error occurred" 500

/-- The cache TTL: `CACHE_DEFAULT_TIMEOUT: 3600` (line 40) and
`@cache.memoize(timeout=3600)` (line 254), one hour in seconds. -/
def CACHE_TTL : Int := 3600

/-- Modelled from the spec: the Result Cache's store.  The implementation is
the `flask_caching` simple cache configured at lines 38-41, whose code is not
part of this repository's source; the spec's CacheEntry is
`{key, value, computed_at}`. -/
structure TtlCache where
  entries : List (String × ProfileSummary × Int)
deriving DecidableEq, Repr

/-- Overwrite-or-insert on the cache's entry list. -/
def setEntry : List (String × ProfileSummary × Int) → String → ProfileSummary →
    Int → List (String × ProfileSummary × Int)
  | [], k, v, t => [(k, v, t)]
  | (k', p) :: rest, k, v, t =>
    if k' = k then (k, v, t) :: rest else (k', p) :: setEntry rest k v t

/-- Lookup of a key's entry in the cache's entry list. -/
def lookupEntry : List (String × ProfileSummary × Int) → String →
    Option (ProfileSummary × Int)
  | [], _ => none
  | (k', p) :: rest, k => if k' = k then some p else lookupEntry rest k

/-- Modelled from the spec: `put(username, summary, now)` stores/overwrites
the entry unconditionally. -/
def cachePut (c : TtlCache) (k : String) (v : ProfileSummary) (t0 : Int) :
    TtlCache :=
  ⟨setEntry c.entries k v t0⟩

/-- Modelled from the spec: `get(username)` returns the cached summary if an
entry exists and `now - computed_at < TTL`, else signals a miss. -/
def cacheGet (c : TtlCache) (k : String) (now : Int) : Option ProfileSummary :=
  match lookupEntry c.entries k with
  | none => none
  | some (v, t) => if now - t < CACHE_TTL then some v else none

/-- The order in which an insertion-ordered dict first sees its keys: the key
list produced by inserting each key once, at its first occurrence. -/
def firstSeen {κ : Type} [DecidableEq κ] (ks : List κ) : List κ :=
  ks.foldl (fun acc k => if k ∈ acc then acc else acc ++ [k]) []

/-- The value of the running maximum `max_stars` after the loop (initial
value `0`, line 281). -/
def maxStarsOf (repos : List Repo) : Nat :=
  repos.foldl (fun m r => max m r.stargazers_count) 0

/-- A basic profile whose `repo_count` attribute is zero (the attribute comes
from `user.public_repos`, line 269, independently of the fetched list). -/
def basicNoRepos : BasicInfo :=
  ⟨"alice", 0, 0, 0, "2020-01-01", "2024-01-01"⟩

/-- A basic profile reporting two repositories. -/
def basicTwoRepos : BasicInfo :=
  ⟨"alice", 2, 0, 0, "2020-01-01", "2024-01-01"⟩

/-- A repository with a single language and zero stars. -/
def repoZeroStars : Repo := ⟨"a", 0, 0, [("Go", 100)]⟩

/-- The two repositories of the spec's aggregation scenario. -/
def repoA : Repo := ⟨"a", 5, 0, [("Go", 100)]⟩

/-- Second repository of the spec's aggregation scenario. -/
def repoB : Repo := ⟨"b", 10, 0, [("Go", 50), ("Rust", 200)]⟩

/-- An arbitrary concrete summary used to exercise the cache contract. -/
def sampleSummary : ProfileSummary :=
  ⟨"alice", 2, 0, 0, "2020-01-01", "2024-01-01", 15, ["Rust", "Go"],
    (15 : ℚ) / 2, some "b", [("Go", 2), ("Rust", 1)], [], []⟩

theorem lookupD_bumpAssoc {κ : Type} [DecidableEq κ] (l : List (κ × Nat)) (k q : κ)
    (n : Nat) :
    lookupD (bumpAssoc l k n) q = lookupD l q + (if q = k then n else 0) := by
  induction l with
  | nil =>
    by_cases h : q = k
    · subst h; simp [bumpAssoc, lookupD]
    · simp [bumpAssoc, lookupD, h, Ne.symm h]
  | cons hd tl ih =>
    obtain ⟨k', v⟩ := hd
    by_cases hk : k' = k
    · subst hk
      by_cases hq : k' = q
      · subst hq; simp [bumpAssoc, lookupD]
      · simp [bumpAssoc, lookupD, hq, Ne.symm hq]
    · by_cases hq : k' = q
      · subst hq
        simp [bumpAssoc, lookupD, hk]
      · simp [bumpAssoc, lookupD, hk, hq, ih]

theorem keys_bumpAssoc {κ : Type} [DecidableEq κ] (l : List (κ × Nat)) (k : κ)
    (n : Nat) :
    (bumpAssoc l k n).map Prod.fst =
      if k ∈ l.map Prod.fst then l.map Prod.fst else l.map Prod.fst ++ [k] := by
  induction l with
  | nil => simp [bumpAssoc]
  | cons hd tl ih =>
    obtain ⟨k', v⟩ := hd
    by_cases hk : k' = k
    · subst hk; simp [bumpAssoc]
    · simp only [bumpAssoc, if_neg hk, List.map_cons, ih, List.mem_cons]
      by_cases hm : k ∈ tl.map Prod.fst
      · simp [hm, Ne.symm hk]
      · simp [hm, Ne.symm hk]

theorem mem_keys_bumpAssoc {κ : Type} [DecidableEq κ] (l : List (κ × Nat)) (k q : κ)
    (n : Nat) :
    q ∈ (bumpAssoc l k n).map Prod.fst ↔ q ∈ l.map Prod.fst ∨ q = k := by
  rw [keys_bumpAssoc]
  by_cases hm : k ∈ l.map Prod.fst
  · simp only [if_pos hm]
    constructor
    · exact Or.inl
    · rintro (h | rfl)
      · exact h
      · exact hm
  · simp [if_neg hm]

theorem nodup_keys_bumpAssoc {κ : Type} [DecidableEq κ] (l : List (κ × Nat)) (k : κ)
    (n : Nat) (h : (l.map Prod.fst).Nodup) :
    ((bumpAssoc l k n).map Prod.fst).Nodup := by
  rw [keys_bumpAssoc]
  by_cases hm : k ∈ l.map Prod.fst
  · simpa [hm] using h
  · simp only [if_neg hm]
    refine List.Nodup.append h (List.nodup_singleton k) ?h
    intro a ha hb
    simp only [List.mem_singleton] at hb
    exact hm (hb ▸ ha)

theorem lookupD_bumpFold {α κ : Type} [DecidableEq κ] (f : α → κ) (g : α → Nat) :
    ∀ (l : List α) (acc : List (κ × Nat)) (k : κ),
      lookupD (l.foldl (fun a x => bumpAssoc a (f x) (g x)) acc) k
        = lookupD acc k + ((l.filter fun x => f x == k).map g).sum := by
  intro l
  induction l with
  | nil => intro acc k; simp
  | cons x xs ih =>
    intro acc k
    simp only [List.foldl_cons, ih, lookupD_bumpAssoc, List.filter_cons]
    by_cases h : f x = k
    · simp [h]
      omega
    · simp [h, Ne.symm h]

theorem mem_keys_bumpFold {α κ : Type} [DecidableEq κ] (f : α → κ) (g : α → Nat) :
    ∀ (l : List α) (acc : List (κ × Nat)) (k : κ),
      k ∈ (l.foldl (fun a x => bumpAssoc a (f x) (g x)) acc).map Prod.fst
        ↔ k ∈ acc.map Prod.fst ∨ ∃ x ∈ l, f x = k := by
  intro l
  induction l with
  | nil => intro acc k; simp
  | cons x xs ih =>
    intro acc k
    simp only [List.foldl_cons, ih, mem_keys_bumpAssoc, List.mem_cons]
    constructor
    · rintro ((h | rfl) | ⟨y, hy, rfl⟩)
      · exact Or.inl h
      · exact Or.inr ⟨x, Or.inl rfl, rfl⟩
      · exact Or.inr ⟨y, Or.inr hy, rfl⟩
    · rintro (h | ⟨y, (rfl | hy), rfl⟩)
      · exact Or.inl (Or.inl h)
      · exact Or.inl (Or.inr rfl)
      · exact Or.inr ⟨y, hy, rfl⟩

theorem nodup_keys_bumpFold {α κ : Type} [DecidableEq κ] (f : α → κ) (g : α → Nat) :
    ∀ (l : List α) (acc : List (κ × Nat)),
      (acc.map Prod.fst).Nodup →
      ((l.foldl (fun a x => bumpAssoc a (f x) (g x)) acc).map Prod.fst).Nodup := by
  intro l
  induction l with
  | nil => intro acc h; simpa using h
  | cons x xs ih =>
    intro acc h
    exact ih _ (nodup_keys_bumpAssoc _ _ _ h)

theorem repoInnerFold (nm : String) (st fk : Nat) :
    ∀ (lbs : List (String × Nat)) (L : List (String × Nat)) (E : List RepoLangEntry),
      lbs.foldl (fun (p : List (String × Nat) × List RepoLangEntry) lb =>
          (bumpAssoc p.1 lb.1 lb.2, p.2 ++ [⟨nm, lb.1, st, fk⟩])) (L, E)
        = (lbs.foldl (fun l lb => bumpAssoc l lb.1 lb.2) L,
           E ++ lbs.map fun lb => ⟨nm, lb.1, st, fk⟩) := by
  intro lbs
  induction lbs with
  | nil => intro L E; simp
  | cons lb lbs ih =>
    intro L E
    simp [List.foldl_cons, ih, List.map_cons]

theorem repoStep_eq (acc : RepoAcc) (r : Repo) :
    repoStep acc r =
      { total_stars := acc.total_stars + r.stargazers_count
        max_stars :=
          if acc.max_stars < r.stargazers_count then r.stargazers_count
          else acc.max_stars
        most_starred_repo :=
          if acc.max_stars < r.stargazers_count then some r.name
          else acc.most_starred_repo
        languages := r.languages.foldl (fun l lb => bumpAssoc l lb.1 lb.2) acc.languages
        repo_languages := acc.repo_languages ++
          r.languages.map fun lb => ⟨r.name, lb.1, r.stargazers_count, r.forks_count⟩ } := by
  unfold repoStep
  rw [repoInnerFold]

theorem loop_total_stars :
    ∀ (repos : List Repo) (acc : RepoAcc),
      (repos.foldl repoStep acc).total_stars
        = acc.total_stars + (repos.map Repo.stargazers_count).sum := by
  intro repos
  induction repos with
  | nil => intro acc; simp
  | cons r rs ih =>
    intro acc
    simp only [List.foldl_cons, ih, repoStep_eq, List.map_cons, List.sum_cons]
    omega

theorem loop_languages :
    ∀ (repos : List Repo) (acc : RepoAcc),
      (repos.foldl repoStep acc).languages
        = (repos.flatMap Repo.languages).foldl (fun l lb => bumpAssoc l lb.1 lb.2)
            acc.languages := by
  intro repos
  induction repos with
  | nil => intro acc; simp
  | cons r rs ih =>
    intro acc
    simp only [List.foldl_cons, ih, repoStep_eq, List.flatMap_cons, List.foldl_append]

theorem loop_repo_languages :
    ∀ (repos : List Repo) (acc : RepoAcc),
      (repos.foldl repoStep acc).repo_languages
        = acc.repo_languages ++ repos.flatMap fun r =>
            r.languages.map fun lb => ⟨r.name, lb.1, r.stargazers_count, r.forks_count⟩ := by
  intro repos
  induction repos with
  | nil => intro acc; simp
  | cons r rs ih =>
    intro acc
    simp only [List.foldl_cons, ih, repoStep_eq, List.flatMap_cons, List.append_assoc]

theorem loop_max_stars :
    ∀ (repos : List Repo) (acc : RepoAcc),
      (repos.foldl repoStep acc).max_stars
        = repos.foldl (fun m r => max m r.stargazers_count) acc.max_stars := by
  intro repos
  induction repos with
  | nil => intro acc; simp
  | cons r rs ih =>
    intro acc
    simp only [List.foldl_cons, ih, repoStep_eq]
    congr 1
    rcases Nat.lt_or_ge acc.max_stars r.stargazers_count with h | h
    · simp [h, Nat.max_eq_right (Nat.le_of_lt h)]
    · simp [Nat.not_lt.mpr h, Nat.max_eq_left h]

theorem le_maxFold :
    ∀ (repos : List Repo) (m : Nat),
      m ≤ repos.foldl (fun a r => max a r.stargazers_count) m := by
  intro repos
  induction repos with
  | nil => intro m; simp
  | cons r rs ih =>
    intro m
    exact le_trans (Nat.le_max_left m r.stargazers_count) (ih _)

theorem mem_le_maxFold :
    ∀ (repos : List Repo) (m : Nat) (r : Repo), r ∈ repos →
      r.stargazers_count ≤ repos.foldl (fun a r => max a r.stargazers_count) m := by
  intro repos
  induction repos with
  | nil => intro m r h; simp at h
  | cons x xs ih =>
    intro m r h
    rcases List.mem_cons.mp h with rfl | h
    · exact le_trans (Nat.le_max_right m r.stargazers_count) (le_maxFold _ _)
    · exact ih _ _ h

theorem maxFold_const :
    ∀ (repos : List Repo) (m : Nat), (∀ r ∈ repos, r.stargazers_count ≤ m) →
      repos.foldl (fun a r => max a r.stargazers_count) m = m := by
  intro repos
  induction repos with
  | nil => intro m _; rfl
  | cons x xs ih =>
    intro m h
    simp only [List.foldl_cons]
    rw [Nat.max_eq_left (h x (List.mem_cons_self x xs))]
    exact ih m fun r hr => h r (List.mem_cons_of_mem x hr)

theorem loop_most_no_improve :
    ∀ (repos : List Repo) (acc : RepoAcc),
      (∀ r ∈ repos, r.stargazers_count ≤ acc.max_stars) →
      (repos.foldl repoStep acc).most_starred_repo = acc.most_starred_repo ∧
        (repos.foldl repoStep acc).max_stars = acc.max_stars := by
  intro repos
  induction repos with
  | nil => intro acc _; exact ⟨rfl, rfl⟩
  | cons r rs ih =>
    intro acc h
    have hr : r.stargazers_count ≤ acc.max_stars := h r (List.mem_cons_self r rs)
    have hstep : repoStep acc r =
        { total_stars := acc.total_stars + r.stargazers_count
          max_stars := acc.max_stars
          most_starred_repo := acc.most_starred_repo
          languages := r.languages.foldl (fun l lb => bumpAssoc l lb.1 lb.2) acc.languages
          repo_languages := acc.repo_languages ++
            r.languages.map fun lb => ⟨r.name, lb.1, r.stargazers_count, r.forks_count⟩ } := by
      rw [repoStep_eq]
      simp [Nat.not_lt.mpr hr]
    simp only [List.foldl_cons, hstep]
    exact ih _ fun x hx => h x (List.mem_cons_of_mem r hx)

theorem loop_most_finds_first :
    ∀ (repos : List Repo) (acc : RepoAcc),
      acc.max_stars < repos.foldl (fun a r => max a r.stargazers_count) acc.max_stars →
      (repos.foldl repoStep acc).most_starred_repo
        = (repos.find? fun r =>
            r.stargazers_count
              == repos.foldl (fun a r => max a r.stargazers_count) acc.max_stars).map
            Repo.name := by
  intro repos
  induction repos with
  | nil => intro acc h; exact absurd h (lt_irrefl _)
  | cons r rs ih =>
    intro acc h
    simp only [List.foldl_cons] at h ⊢
    rcases Nat.lt_or_ge acc.max_stars r.stargazers_count with hr | hr
    · have hmax : max acc.max_stars r.stargazers_count = r.stargazers_count :=
        Nat.max_eq_right (Nat.le_of_lt hr)
      have hstep : repoStep acc r =
          { total_stars := acc.total_stars + r.stargazers_count
            max_stars := r.stargazers_count
            most_starred_repo := some r.name
            languages := r.languages.foldl (fun l lb => bumpAssoc l lb.1 lb.2) acc.languages
            repo_languages := acc.repo_languages ++
              r.languages.map fun lb => ⟨r.name, lb.1, r.stargazers_count, r.forks_count⟩ } := by
        rw [repoStep_eq]; simp [hr]
      rw [hmax] at h ⊢
      by_cases hM : r.stargazers_count
          = rs.foldl (fun a x => max a x.stargazers_count) r.stargazers_count
      · have hall : ∀ x ∈ rs, x.stargazers_count ≤ r.stargazers_count := by
          intro x hx
          exact hM ▸ mem_le_maxFold rs r.stargazers_count x hx
        have h2 := loop_most_no_improve rs (repoStep acc r)
          (by rw [hstep]; exact hall)
        have hpos : (r.stargazers_count
            == rs.foldl (fun a x => max a x.stargazers_count) r.stargazers_count) = true := by
          simp only [beq_iff_eq]
          exact hM
        simp only [List.find?_cons, hpos]
        rw [h2.1, hstep]
        rfl
      · have hlt : r.stargazers_count
            < rs.foldl (fun a x => max a x.stargazers_count) r.stargazers_count :=
          lt_of_le_of_ne (le_maxFold rs r.stargazers_count) hM
        have hfind : (r.stargazers_count
            == rs.foldl (fun a x => max a x.stargazers_count) r.stargazers_count) = false := by
          simp [hM]
        simp only [List.find?_cons, hfind]
        have := ih (repoStep acc r) (by rw [hstep]; exact hlt)
        rw [hstep] at this
        simpa [hstep] using this
    · have hmax : max acc.max_stars r.stargazers_count = acc.max_stars :=
        Nat.max_eq_left hr
      have hstep : repoStep acc r =
          { total_stars := acc.total_stars + r.stargazers_count
            max_stars := acc.max_stars
            most_starred_repo := acc.most_starred_repo
            languages := r.languages.foldl (fun l lb => bumpAssoc l lb.1 lb.2) acc.languages
            repo_languages := acc.repo_languages ++
              r.languages.map fun lb => ⟨r.name, lb.1, r.stargazers_count, r.forks_count⟩ } := by
        rw [repoStep_eq]; simp [Nat.not_lt.mpr hr]
      rw [hmax] at h ⊢
      have hne : (r.stargazers_count
          == rs.foldl (fun a x => max a x.stargazers_count) acc.max_stars) = false := by
        have hlt : r.stargazers_count
            < rs.foldl (fun a x => max a x.stargazers_count) acc.max_stars :=
          lt_of_le_of_lt hr h
        simp [Nat.ne_of_lt hlt]
      simp only [List.find?_cons, hne]
      have := ih (repoStep acc r) (by rw [hstep]; exact h)
      rw [hstep] at this
      simpa [hstep] using this

theorem insertByBytes_perm (x : String × Nat) :
    ∀ l : List (String × Nat), List.Perm (insertByBytes x l) (x :: l) := by
  intro l
  induction l with
  | nil => simp [insertByBytes]
  | cons y ys ih =>
    by_cases h : x.2 ≤ y.2
    · simp only [insertByBytes, if_pos h]
      exact (ih.cons y).trans (List.Perm.swap x y ys)
    · simp [insertByBytes, if_neg h]

theorem sortFold_perm :
    ∀ (l acc : List (String × Nat)),
      List.Perm (l.foldl (fun a x => insertByBytes x a) acc) (acc ++ l) := by
  intro l
  induction l with
  | nil => intro acc; simp
  | cons x xs ih =>
    intro acc
    simp only [List.foldl_cons]
    refine (ih (insertByBytes x acc)).trans ?h
    refine (List.Perm.append_right xs (insertByBytes_perm x acc)).trans ?h2
    exact (List.perm_middle).symm

theorem sortByBytesDesc_perm (l : List (String × Nat)) :
    List.Perm (sortByBytesDesc l) l := by
  simpa using sortFold_perm l []

theorem insertByBytes_pairwise (x : String × Nat) :
    ∀ l : List (String × Nat),
      l.Pairwise (fun a b => b.2 ≤ a.2) →
      (insertByBytes x l).Pairwise (fun a b => b.2 ≤ a.2) := by
  intro l
  induction l with
  | nil => intro _; simp [insertByBytes]
  | cons y ys ih =>
    intro h
    rcases List.pairwise_cons.mp h with ⟨hy, hys⟩
    by_cases hxy : x.2 ≤ y.2
    · simp only [insertByBytes, if_pos hxy]
      have hmem : ∀ z ∈ insertByBytes x ys, z.2 ≤ y.2 := by
        intro z hz
        rcases List.mem_cons.mp ((insertByBytes_perm x ys).mem_iff.mp hz) with hzx | hz2
        · rw [hzx]; exact hxy
        · exact hy z hz2
      exact List.pairwise_cons.mpr ⟨hmem, ih hys⟩
    · simp only [insertByBytes, if_neg hxy]
      refine List.pairwise_cons.mpr ⟨?h1, h⟩
      intro z hz
      rcases List.mem_cons.mp hz with rfl | hz2
      · exact Nat.le_of_lt (Nat.lt_of_not_le hxy)
      · exact le_trans (hy z hz2) (Nat.le_of_lt (Nat.lt_of_not_le hxy))

theorem sortFold_pairwise :
    ∀ (l acc : List (String × Nat)),
      acc.Pairwise (fun a b => b.2 ≤ a.2) →
      (l.foldl (fun a x => insertByBytes x a) acc).Pairwise (fun a b => b.2 ≤ a.2) := by
  intro l
  induction l with
  | nil => intro acc h; simpa using h
  | cons x xs ih =>
    intro acc h
    exact ih _ (insertByBytes_pairwise x acc h)

theorem sortByBytesDesc_pairwise (l : List (String × Nat)) :
    (sortByBytesDesc l).Pairwise (fun a b => b.2 ≤ a.2) :=
  sortFold_pairwise l [] (List.Pairwise.nil)

theorem filter_insertByBytes (x : String × Nat) (k : Nat) :
    ∀ l : List (String × Nat),
      l.Pairwise (fun a b => b.2 ≤ a.2) →
      (insertByBytes x l).filter (fun p => p.2 == k)
        = if x.2 = k then l.filter (fun p => p.2 == k) ++ [x]
          else l.filter (fun p => p.2 == k) := by
  intro l
  induction l with
  | nil =>
    intro _
    by_cases h : x.2 = k
    · simp [insertByBytes, List.filter_cons, h]
    · simp [insertByBytes, List.filter_cons, h]
  | cons y ys ih =>
    intro hp
    rcases List.pairwise_cons.mp hp with ⟨hy, hys⟩
    by_cases hxy : x.2 ≤ y.2
    · simp only [insertByBytes, if_pos hxy, List.filter_cons, ih hys]
      by_cases hyk : y.2 = k <;> by_cases hxk : x.2 = k <;> simp [hyk, hxk]
    · have hlt : y.2 < x.2 := Nat.lt_of_not_le hxy
      simp only [insertByBytes, if_neg hxy]
      by_cases hxk : x.2 = k
      · have hnil : (y :: ys).filter (fun p => p.2 == k) = [] := by
          refine List.filter_eq_nil_iff.mpr ?h
          intro a ha
          rcases List.mem_cons.mp ha with rfl | ha2
          · simp only [beq_iff_eq]
            omega
          · have : a.2 ≤ y.2 := hy a ha2
            simp only [beq_iff_eq]
            omega
        rw [if_pos hxk, hnil]
        simp only [List.filter_cons, hnil]
        simp [hxk]
      · rw [if_neg hxk]
        simp only [List.filter_cons]
        simp [hxk]

theorem filter_sortFold (k : Nat) :
    ∀ (l acc : List (String × Nat)),
      acc.Pairwise (fun a b => b.2 ≤ a.2) →
      (l.foldl (fun a x => insertByBytes x a) acc).filter (fun p => p.2 == k)
        = acc.filter (fun p => p.2 == k) ++ l.filter (fun p => p.2 == k) := by
  intro l
  induction l with
  | nil => intro acc h; simp
  | cons x xs ih =>
    intro acc h
    simp only [List.foldl_cons]
    rw [ih _ (insertByBytes_pairwise x acc h), filter_insertByBytes x k acc h]
    by_cases hxk : x.2 = k
    · simp [List.filter_cons, hxk]
    · simp [List.filter_cons, hxk]

theorem sortByBytesDesc_filter (l : List (String × Nat)) (k : Nat) :
    (sortByBytesDesc l).filter (fun p => p.2 == k) = l.filter (fun p => p.2 == k) := by
  simpa using filter_sortFold k l [] (List.Pairwise.nil)

theorem keys_bumpPairFold {κ : Type} [DecidableEq κ] :
    ∀ (pairs : List (κ × Nat)) (L : List (κ × Nat)),
      ((pairs.foldl (fun l lb => bumpAssoc l lb.1 lb.2) L).map Prod.fst)
        = pairs.foldl (fun acc lb => if lb.1 ∈ acc then acc else acc ++ [lb.1])
            (L.map Prod.fst) := by
  intro pairs
  induction pairs with
  | nil => intro L; simp
  | cons p ps ih =>
    intro L
    simp only [List.foldl_cons, ih, keys_bumpAssoc]

theorem mem_insFold {κ : Type} [DecidableEq κ] :
    ∀ (ks : List κ) (acc : List κ) (q : κ),
      q ∈ ks.foldl (fun acc k => if k ∈ acc then acc else acc ++ [k]) acc
        ↔ q ∈ acc ∨ q ∈ ks := by
  intro ks
  induction ks with
  | nil => intro acc q; simp
  | cons k ks ih =>
    intro acc q
    simp only [List.foldl_cons]
    by_cases hk : k ∈ acc
    · rw [if_pos hk, ih]
      constructor
      · rintro (h | h)
        · exact Or.inl h
        · exact Or.inr (List.mem_cons_of_mem k h)
      · rintro (h | h)
        · exact Or.inl h
        · rcases List.mem_cons.mp h with rfl | h2
          · exact Or.inl hk
          · exact Or.inr h2
    · rw [if_neg hk, ih]
      simp only [List.mem_append, List.mem_singleton, List.mem_cons]
      tauto

theorem nodup_insFold {κ : Type} [DecidableEq κ] :
    ∀ (ks : List κ) (acc : List κ), acc.Nodup →
      (ks.foldl (fun acc k => if k ∈ acc then acc else acc ++ [k]) acc).Nodup := by
  intro ks
  induction ks with
  | nil => intro acc h; simpa using h
  | cons k ks ih =>
    intro acc h
    simp only [List.foldl_cons]
    by_cases hk : k ∈ acc
    · rw [if_pos hk]; exact ih acc h
    · rw [if_neg hk]
      refine ih _ (List.Nodup.append h (List.nodup_singleton k) ?h)
      intro a ha hb
      simp only [List.mem_singleton] at hb
      exact hk (hb ▸ ha)

theorem firstSeen_nodup {κ : Type} [DecidableEq κ] (ks : List κ) :
    (firstSeen ks).Nodup :=
  nodup_insFold ks [] List.nodup_nil

theorem mem_firstSeen {κ : Type} [DecidableEq κ] (ks : List κ) (q : κ) :
    q ∈ firstSeen ks ↔ q ∈ ks := by
  unfold firstSeen
  rw [mem_insFold]
  simp

theorem sum_map_one {α : Type} :
    ∀ l : List α, (l.map fun _ => (1 : Nat)).sum = l.length := by
  intro l
  induction l with
  | nil => rfl
  | cons x xs ih => simp [ih, Nat.add_comm]

theorem lookupD_countFold {α κ : Type} [DecidableEq κ] (f : α → κ)
    (l : List α) (acc₀ : List (κ × Nat)) (k : κ) :
    lookupD (l.foldl (fun a x => bumpAssoc a (f x) 1) acc₀) k
      = lookupD acc₀ k + l.countP (fun x => f x == k) := by
  have h := lookupD_bumpFold f (fun _ => 1) l acc₀ k
  rw [h, sum_map_one, List.countP_eq_length_filter]

theorem countP_filter' {α : Type} (p q : α → Bool) :
    ∀ l : List α, (l.filter p).countP q = l.countP fun a => p a && q a := by
  intro l
  induction l with
  | nil => rfl
  | cons x xs ih =>
    by_cases hp : p x
    · by_cases hq : q x
      · simp [List.filter_cons, List.countP_cons, hp, hq, ih]
      · simp [List.filter_cons, List.countP_cons, hp, hq, ih]
    · simp [List.filter_cons, List.countP_cons, hp, ih]

theorem count_map_countP {α β : Type} [DecidableEq β] (f : α → β) (b : β) :
    ∀ l : List α, (l.map f).count b = l.countP fun a => f a == b := by
  intro l
  induction l with
  | nil => rfl
  | cons x xs ih =>
    simp only [List.map_cons, List.count_cons, List.countP_cons, ih]

theorem foldl_ite_bump (now : Int) :
    ∀ (events : List Int) (acc : List (Int × Nat)),
      events.foldl
          (fun a t => if now - 30 * 86400 < t then bumpAssoc a (dayOf t) 1 else a) acc
        = ((events.filter fun t => decide (now - 30 * 86400 < t)).map dayOf).foldl
            (fun a d => bumpAssoc a d 1) acc := by
  intro events
  induction events with
  | nil => intro acc; rfl
  | cons t ts ih =>
    intro acc
    by_cases h : now - 30 * 86400 < t
    · rw [List.foldl_cons, if_pos h, ih,
        List.filter_cons_of_pos (by exact decide_eq_true h), List.map_cons,
        List.foldl_cons]
    · rw [List.foldl_cons, if_neg h, ih,
        List.filter_cons_of_neg (by simpa using h)]

theorem event_counter_eq (events : List Int) (now : Int) :
    event_counter events now
      = ((events.filter fun t => decide (now - 30 * 86400 < t)).map dayOf).foldl
          (fun a d => bumpAssoc a d 1) [] := by
  unfold event_counter
  exact foldl_ite_bump now events []

theorem lookupD_event_counter (events : List Int) (now : Int) (d : Int) :
    lookupD (event_counter events now) d
      = events.countP fun t => decide (now - 30 * 86400 < t) && (dayOf t == d) := by
  rw [event_counter_eq]
  have h := lookupD_countFold (fun d : Int => d)
    ((events.filter fun t => decide (now - 30 * 86400 < t)).map dayOf) [] d
  rw [h]
  simp only [lookupD]
  rw [Nat.zero_add]
  have h2 : ((events.filter fun t => decide (now - 30 * 86400 < t)).map dayOf).countP
      (fun x => x == d)
      = (events.filter fun t => decide (now - 30 * 86400 < t)).countP
          (fun t => dayOf t == d) := by
    have := count_map_countP dayOf d (events.filter fun t => decide (now - 30 * 86400 < t))
    simpa [List.count] using this
  rw [h2, countP_filter']

theorem mem_keys_event_counter (events : List Int) (now : Int) (d : Int) :
    d ∈ (event_counter events now).map Prod.fst
      ↔ ∃ t ∈ events, now - 30 * 86400 < t ∧ dayOf t = d := by
  rw [event_counter_eq]
  rw [mem_keys_bumpFold (fun d : Int => d) (fun _ => 1)]
  simp only [List.mem_map, List.mem_filter, List.map_nil, List.not_mem_nil, false_or]
  constructor
  · rintro ⟨x, ⟨t, ⟨ht, hw⟩, rfl⟩, rfl⟩
    exact ⟨t, ht, of_decide_eq_true hw, rfl⟩
  · rintro ⟨t, ht, hw, rfl⟩
    exact ⟨dayOf t, ⟨t, ⟨ht, decide_eq_true hw⟩, rfl⟩, rfl⟩

theorem nodup_keys_event_counter (events : List Int) (now : Int) :
    ((event_counter events now).map Prod.fst).Nodup := by
  rw [event_counter_eq]
  exact nodup_keys_bumpFold (fun d : Int => d) (fun _ => 1) _ [] (by simp)

theorem stripLit_eq_some :
    ∀ (ps cs r : List Char), stripLit ps cs = some r ↔ cs = ps ++ r := by
  intro ps
  induction ps with
  | nil =>
    intro cs r
    simp [stripLit, eq_comm]
  | cons p ps ih =>
    intro cs r
    cases cs with
    | nil => simp [stripLit]
    | cons c cs' =>
      by_cases h : c = p
      · subst h
        simp [stripLit, ih]
      · simp [stripLit, h]

theorem stripLit_append (ps cs : List Char) : stripLit ps (ps ++ cs) = some cs :=
  (stripLit_eq_some ps (ps ++ cs) cs).mpr rfl

theorem matchDollar_iff (cs : List Char) :
    matchDollar cs = true ↔ cs = [] ∨ cs = ['\n'] := by
  simp [matchDollar]

theorem matchSlashDollar_iff (cs : List Char) :
    matchSlashDollar cs = true
      ↔ cs ∈ ([[], ['\n'], ['/'], ['/', '\n']] : List (List Char)) := by
  cases cs with
  | nil => simp [matchSlashDollar, matchDollar]
  | cons c cs' =>
    by_cases hc : c = '/'
    · subst hc
      simp [matchSlashDollar, matchDollar]
    · simp [matchSlashDollar, hc, matchDollar]

theorem matchIdentRest_iff :
    ∀ cs : List Char,
      matchIdentRest cs = true
        ↔ ∃ u e : List Char, (∀ c ∈ u, isIdentChar c = true) ∧
            e ∈ ([[], ['\n'], ['/'], ['/', '\n']] : List (List Char)) ∧ cs = u ++ e := by
  intro cs
  induction cs with
  | nil =>
    constructor
    · intro _
      exact ⟨[], [], by simp, by simp, rfl⟩
    · intro _
      rfl
  | cons c cs ih =>
    by_cases hc : isIdentChar c = true
    · have hdef : matchIdentRest (c :: cs) = matchIdentRest cs := by
        simp [matchIdentRest, hc]
      rw [hdef, ih]
      constructor
      · rintro ⟨u, e, hu, he, rfl⟩
        refine ⟨c :: u, e, ?hall, he, rfl⟩
        intro x hx
        rcases List.mem_cons.mp hx with rfl | hx2
        · exact hc
        · exact hu x hx2
      · rintro ⟨u, e, hu, he, heq⟩
        cases u with
        | nil =>
          simp only [List.nil_append] at heq
          exfalso
          simp at he
          rcases he with rfl | rfl | rfl | rfl
          · cases heq
          · injection heq with h1 h2
            rw [h1] at hc
            exact absurd hc (by decide)
          · injection heq with h1 h2
            rw [h1] at hc
            exact absurd hc (by decide)
          · injection heq with h1 h2
            rw [h1] at hc
            exact absurd hc (by decide)
        | cons c₀ u' =>
          simp only [List.cons_append] at heq
          injection heq with h1 h2
          subst h1
          exact ⟨u', e, fun x hx => hu x (List.mem_cons_of_mem c hx), he, h2⟩
    · have hdef : matchIdentRest (c :: cs) = matchSlashDollar (c :: cs) := by
        simp [matchIdentRest, hc]
      rw [hdef, matchSlashDollar_iff]
      constructor
      · intro h
        exact ⟨[], c :: cs, by simp, h, rfl⟩
      · rintro ⟨u, e, hu, he, heq⟩
        cases u with
        | nil =>
          simp only [List.nil_append] at heq
          rw [heq]
          exact he
        | cons c₀ u' =>
          simp only [List.cons_append] at heq
          injection heq with h1 h2
          subst h1
          exact absurd (hu c (List.mem_cons_self c u')) hc

theorem matchIdentPlus_iff (cs : List Char) :
    matchIdentPlus cs = true
      ↔ ∃ u e : List Char, u ≠ [] ∧ (∀ c ∈ u, isIdentChar c = true) ∧
          e ∈ ([[], ['\n'], ['/'], ['/', '\n']] : List (List Char)) ∧ cs = u ++ e := by
  cases cs with
  | nil =>
    simp only [matchIdentPlus]
    constructor
    · intro h
      cases h
    · rintro ⟨u, e, hne, hu, he, heq⟩
      exact absurd (List.append_eq_nil.mp heq.symm).1 hne
  | cons c cs =>
    simp only [matchIdentPlus, Bool.and_eq_true]
    rw [matchIdentRest_iff]
    constructor
    · rintro ⟨hc, u, e, hu, he, rfl⟩
      refine ⟨c :: u, e, List.cons_ne_nil c u, ?hall, he, rfl⟩
      intro x hx
      rcases List.mem_cons.mp hx with rfl | hx2
      · exact hc
      · exact hu x hx2
    · rintro ⟨u, e, hne, hu, he, heq⟩
      cases u with
      | nil => exact absurd rfl hne
      | cons c₀ u' =>
        simp only [List.cons_append] at heq
        injection heq with h1 h2
        subst h1
        exact ⟨hu c (List.mem_cons_self c u'),
          u', e, fun x hx => hu x (List.mem_cons_of_mem c hx), he, h2⟩

theorem stripHttpsOnHttp (X : List Char) :
    stripLit ("https://".toList) ("http://".toList ++ X) = none := by
  have e1 : "https://".toList = ['h', 't', 't', 'p', 's', ':', '/', '/'] := rfl
  have e2 : "http://".toList = ['h', 't', 't', 'p', ':', '/', '/'] := rfl
  rw [e1, e2]
  simp [stripLit]

theorem stripWwwOnGithub (X : List Char) :
    stripLit ("www.".toList) ("github.com/".toList ++ X) = none := by
  have e1 : "www.".toList = ['w', 'w', 'w', '.'] := rfl
  have e2 : "github.com/".toList
      = ['g', 'i', 't', 'h', 'u', 'b', '.', 'c', 'o', 'm', '/'] := rfl
  rw [e1, e2]
  simp [stripLit]

theorem matchGithubUrl_iff (cs : List Char) :
    matchGithubUrl cs = true ↔ CanonicalGithubUrl cs := by
  constructor
  · intro h
    unfold matchGithubUrl at h
    rcases h1 : stripLit ("https://".toList) cs with _ | r1
    all_goals rcases h1h : stripLit ("http://".toList) cs with _ | r1h
    · simp only [h1, h1h] at h
      exact Bool.noConfusion h
    · simp only [h1, h1h] at h
      have hcs : cs = "http://".toList ++ r1h := (stripLit_eq_some _ _ _).mp h1h
      rcases h2 : stripLit ("www.".toList) r1h with _ | r2
      · simp only [h2] at h
        rcases h3 : stripLit ("github.com/".toList) r1h with _ | r3
        · simp only [h3] at h
          exact Bool.noConfusion h
        · simp only [h3] at h
          have hr2 : r1h = "github.com/".toList ++ r3 := (stripLit_eq_some _ _ _).mp h3
          rcases (matchIdentPlus_iff r3).mp h with ⟨u, e, hne, hu, he, rfl⟩
          exact ⟨false, false, u, e, hne, hu, he, by
            rw [hcs, hr2]; simp [List.append_assoc]⟩
      · simp only [h2] at h
        have hr1 : r1h = "www.".toList ++ r2 := (stripLit_eq_some _ _ _).mp h2
        rcases h3 : stripLit ("github.com/".toList) r2 with _ | r3
        · simp only [h3] at h
          exact Bool.noConfusion h
        · simp only [h3] at h
          have hr2 : r2 = "github.com/".toList ++ r3 := (stripLit_eq_some _ _ _).mp h3
          rcases (matchIdentPlus_iff r3).mp h with ⟨u, e, hne, hu, he, rfl⟩
          exact ⟨false, true, u, e, hne, hu, he, by
            rw [hcs, hr1, hr2]; simp [List.append_assoc]⟩
    all_goals (
      simp only [h1, h1h] at h
      have hcs : cs = "https://".toList ++ r1 := (stripLit_eq_some _ _ _).mp h1
      rcases h2 : stripLit ("www.".toList) r1 with _ | r2
      · simp only [h2] at h
        rcases h3 : stripLit ("github.com/".toList) r1 with _ | r3
        · simp only [h3] at h
          exact Bool.noConfusion h
        · simp only [h3] at h
          have hr2 : r1 = "github.com/".toList ++ r3 := (stripLit_eq_some _ _ _).mp h3
          rcases (matchIdentPlus_iff r3).mp h with ⟨u, e, hne, hu, he, rfl⟩
          exact ⟨true, false, u, e, hne, hu, he, by
            rw [hcs, hr2]; simp [List.append_assoc]⟩
      · simp only [h2] at h
        have hr1 : r1 = "www.".toList ++ r2 := (stripLit_eq_some _ _ _).mp h2
        rcases h3 : stripLit ("github.com/".toList) r2 with _ | r3
        · simp only [h3] at h
          exact Bool.noConfusion h
        · simp only [h3] at h
          have hr2 : r2 = "github.com/".toList ++ r3 := (stripLit_eq_some _ _ _).mp h3
          rcases (matchIdentPlus_iff r3).mp h with ⟨u, e, hne, hu, he, rfl⟩
          exact ⟨true, true, u, e, hne, hu, he, by
            rw [hcs, hr1, hr2]; simp [List.append_assoc]⟩)
  · rintro ⟨s, w, u, e, hne, hu, he, rfl⟩
    have hip : matchIdentPlus (u ++ e) = true :=
      (matchIdentPlus_iff (u ++ e)).mpr ⟨u, e, hne, hu, he, rfl⟩
    cases s <;> cases w <;>
      simp only [matchGithubUrl, if_true, if_false, Bool.false_eq_true,
        List.append_assoc, List.nil_append, List.append_nil,
        stripHttpsOnHttp, stripWwwOnGithub, stripLit_append] <;>
      exact hip

theorem countP_flatMap {α β : Type} (g : α → List β) (p : β → Bool) :
    ∀ l : List α, (l.flatMap g).countP p = (l.map fun r => (g r).countP p).sum := by
  intro l
  induction l with
  | nil => rfl
  | cons x xs ih =>
    simp only [List.flatMap_cons, List.countP_append, List.map_cons, List.sum_cons, ih]

theorem sum_map_ite {α : Type} (p : α → Bool) :
    ∀ l : List α, (l.map fun x => if p x then 1 else 0).sum = l.countP p := by
  intro l
  induction l with
  | nil => rfl
  | cons x xs ih =>
    by_cases h : p x
    · simp [List.countP_cons, h, ih, Nat.add_comm]
    · simp [List.countP_cons, h, ih]

theorem count_nodup_ite {β : Type} [DecidableEq β] (l : List β) (h : l.Nodup) (b : β) :
    l.count b = if b ∈ l then 1 else 0 := by
  by_cases hm : b ∈ l
  · rw [if_pos hm]
    exact le_antisymm (List.nodup_iff_count_le_one.mp h b) (List.count_pos_iff.mpr hm)
  · rw [if_neg hm]
    exact List.count_eq_zero_of_not_mem hm

theorem lookup_setEntry :
    ∀ (l : List (String × ProfileSummary × Int)) (k : String) (v : ProfileSummary)
      (t : Int), lookupEntry (setEntry l k v t) k = some (v, t) := by
  intro l
  induction l with
  | nil => intro k v t; simp [setEntry, lookupEntry]
  | cons hd tl ih =>
    intro k v t
    obtain ⟨k', p⟩ := hd
    by_cases h : k' = k
    · subst h; simp [setEntry, lookupEntry]
    · simp [setEntry, lookupEntry, h, ih]

/-- C1: for every non-empty URL string passed to `analyze_github_profile`, the
call raises and never returns a summary: the helper
`extract_username_from_url` is undefined, and both exception handlers read the
unbound local `username`, so even validation failures escape as an untyped
`UnboundLocalError` rather than the typed `ValueError` the handler intends. -/
theorem analyze_github_profile_always_raises (url : String) (h : url ≠ "") :
    analyze_github_profile url = .error (.unboundLocal "username") := by
  unfold analyze_github_profile analyze_try_body validate_github_url
  by_cases h0 : url = ""
  · exact absurd h0 h
  · simp only [if_neg h0]
    by_cases hm : matchGithubUrl url.data = true
    · simp [hm, analyze_handle_error]
    · simp [hm, analyze_handle_error]

/-- Concrete instance of `analyze_github_profile_always_raises` at a
well-formed profile URL. -/
theorem analyze_github_profile_always_raises_witness :
    analyze_github_profile "https://github.com/alice"
      = .error (.unboundLocal "username") :=
  analyze_github_profile_always_raises "https://github.com/alice" (by decide)

/-- C2 (failing evaluation): at the well-formed URL parsed below, the
`/analyze` endpoint responds with the generic unclassified 500 failure: the
`UnboundLocalError` escaping `analyze_github_profile` is not a `ValueError`,
so the response is neither a ProfileSummary nor one of the five typed
errors. -/
theorem analyze_route_unclassified_failure :
    analyze_route (some "https://github.com/alice")
      = .err "An unexpected error occurred" 500 := by
  rfl

/-- C3 (counterexample): a URL carrying an extra path segment after a valid
identifier first segment, and one carrying a query string, are both rejected
by the validator, contradicting the claim that they are accepted. -/
theorem validate_github_url_rejects_extras :
    validate_github_url "https://github.com/alice/repo"
        = .error (.valueError "Invalid GitHub URL format") ∧
    validate_github_url "https://github.com/alice?tab=repos"
        = .error (.valueError "Invalid GitHub URL format") := by
  exact ⟨rfl, rfl⟩

/-- C3 (amended): the validator rejects the empty string with the
empty-input error; every other input is accepted, returning the stripped
URL, exactly when it is canonical - scheme `http` or `https`, optional
`www.`, host `github.com`, a nonempty first path segment of identifier
characters, optional trailing slash (Python's `$` also tolerates one final
newline) - and rejected with the malformed-URL error otherwise; in
particular URLs with a host other than github.com, with no first path
segment, with extra path segments, or with query strings are rejected. -/
theorem validate_github_url_characterization (url : String) :
    (url = "" → validate_github_url url = .error (.valueError "URL cannot be empty")) ∧
    (url ≠ "" → CanonicalGithubUrl url.toList →
      validate_github_url url = .ok (pyStrip url)) ∧
    (url ≠ "" → ¬ CanonicalGithubUrl url.toList →
      validate_github_url url = .error (.valueError "Invalid GitHub URL format")) := by
  refine ⟨?h1, ?h2, ?h3⟩
  · intro h
    simp [validate_github_url, h]
  · intro h hc
    have hm : matchGithubUrl url.data = true := (matchGithubUrl_iff _).mpr hc
    simp [validate_github_url, h, hm]
  · intro h hc
    have hm : matchGithubUrl url.data = false := by
      rcases Bool.eq_false_or_eq_true (matchGithubUrl url.toList) with ht | hf
      · exact absurd ((matchGithubUrl_iff _).mp ht) hc
      · exact hf
    simp [validate_github_url, h, hm]

/-- Concrete instance of `validate_github_url_characterization`: a canonical
https URL without www or trailing slash is accepted. -/
theorem validate_github_url_characterization_witness :
    validate_github_url "https://github.com/alice"
      = .ok (pyStrip "https://github.com/alice") := by
  refine (validate_github_url_characterization "https://github.com/alice").2.1
    (by decide) ?hc
  exact ⟨true, false, "alice".toList, [], by decide, by decide, by decide, by decide⟩

/-- C4 (failing evaluation): on success the validator returns the whole URL
(stripped), not the first path segment: both example URLs validate to
themselves rather than to the username, and the username-extraction step the
orchestration then runs raises `NameError` because
`extract_username_from_url` is undefined, so the username is never
produced. -/
theorem validate_github_url_returns_url_not_username :
    validate_github_url "https://github.com/alice" = .ok "https://github.com/alice" ∧
    validate_github_url "http://www.github.com/alice/"
        = .ok "http://www.github.com/alice/" ∧
    ("https://github.com/alice" : String) ≠ "alice" ∧
    analyze_try_body "https://github.com/alice"
        = .error (.nameError "extract_username_from_url", none) := by
  refine ⟨rfl, rfl, by decide, rfl⟩

/-- C5: `total_stars` is the sum of the fetched repositories' star counts,
and `avg_stars_per_repo` is `total_stars / repo_count` when the profile's
`repo_count` is positive and `0` otherwise. -/
theorem summary_star_totals (basic : BasicInfo) (repos : List Repo)
    (events : List Int) (now : Int) :
    (buildSummary basic repos events now).total_stars
        = (repos.map Repo.stargazers_count).sum ∧
    (buildSummary basic repos events now).avg_stars_per_repo
        = if 0 < basic.repo_count
          then (((repos.map Repo.stargazers_count).sum : ℚ) / (basic.repo_count : ℚ))
          else 0 := by
  have ht : (runRepoLoop repos).total_stars = (repos.map Repo.stargazers_count).sum := by
    have h := loop_total_stars repos ⟨0, 0, none, [], []⟩
    simpa [runRepoLoop] using h
  constructor
  · simpa [buildSummary] using ht
  · simp [buildSummary, avg_stars_per_repo_of, ht]

/-- C6: `top_languages` has length `min 5 (distinct language count)`, all its
entries are keys of the byte-aggregated language mapping, the underlying sort
is in descending byte order and stable (entries with equal byte totals keep
the mapping's order), and the mapping's key order is first-appearance order
over the repositories' language streams. -/
theorem summary_top_languages (basic : BasicInfo) (repos : List Repo)
    (events : List Int) (now : Int) :
    (buildSummary basic repos events now).top_languages.length
        = min 5 ((repos.flatMap fun r => r.languages.map Prod.fst).toFinset.card) ∧
    (∀ l ∈ (buildSummary basic repos events now).top_languages,
        l ∈ (runRepoLoop repos).languages.map Prod.fst) ∧
    (sortByBytesDesc (runRepoLoop repos).languages).Pairwise (fun a b => b.2 ≤ a.2) ∧
    (∀ k : Nat, (sortByBytesDesc (runRepoLoop repos).languages).filter (fun p => p.2 == k)
        = (runRepoLoop repos).languages.filter (fun p => p.2 == k)) ∧
    (runRepoLoop repos).languages.map Prod.fst
        = firstSeen (repos.flatMap fun r => r.languages.map Prod.fst) ∧
    (buildSummary basic repos events now).top_languages
        = ((sortByBytesDesc (runRepoLoop repos).languages).take 5).map Prod.fst := by
  have htop : (buildSummary basic repos events now).top_languages
      = ((sortByBytesDesc (runRepoLoop repos).languages).take 5).map Prod.fst := rfl
  have hlang : (runRepoLoop repos).languages
      = (repos.flatMap Repo.languages).foldl (fun l lb => bumpAssoc l lb.1 lb.2) [] := by
    have h := loop_languages repos ⟨0, 0, none, [], []⟩
    simpa [runRepoLoop] using h
  have hkeys : (runRepoLoop repos).languages.map Prod.fst
      = firstSeen (repos.flatMap fun r => r.languages.map Prod.fst) := by
    rw [hlang, keys_bumpPairFold]
    unfold firstSeen
    rw [show (repos.flatMap fun r => r.languages.map Prod.fst)
          = (repos.flatMap Repo.languages).map Prod.fst from
        (List.map_flatMap _ _ _).symm]
    rw [List.foldl_map]
    rfl
  have hcard : (runRepoLoop repos).languages.length
      = (repos.flatMap fun r => r.languages.map Prod.fst).toFinset.card := by
    have hfin : (firstSeen (repos.flatMap fun r => r.languages.map Prod.fst)).toFinset
        = (repos.flatMap fun r => r.languages.map Prod.fst).toFinset := by
      apply Finset.ext
      intro a
      simp [List.mem_toFinset, mem_firstSeen]
    calc (runRepoLoop repos).languages.length
        = ((runRepoLoop repos).languages.map Prod.fst).length := (List.length_map _ _).symm
      _ = (firstSeen (repos.flatMap fun r => r.languages.map Prod.fst)).length := by
          rw [hkeys]
      _ = (firstSeen (repos.flatMap fun r => r.languages.map Prod.fst)).toFinset.card :=
          (List.toFinset_card_of_nodup (firstSeen_nodup _)).symm
      _ = (repos.flatMap fun r => r.languages.map Prod.fst).toFinset.card := by
          rw [hfin]
  refine ⟨?hlen, ?hmem, sortByBytesDesc_pairwise _, sortByBytesDesc_filter _, hkeys, htop⟩
  · rw [htop, List.length_map, List.length_take,
      (sortByBytesDesc_perm (runRepoLoop repos).languages).length_eq, hcard]
  · intro l hl
    rw [htop] at hl
    rcases List.mem_map.mp hl with ⟨p, hp, rfl⟩
    have hp2 : p ∈ sortByBytesDesc (runRepoLoop repos).languages :=
      List.mem_of_mem_take hp
    have hp3 : p ∈ (runRepoLoop repos).languages :=
      (sortByBytesDesc_perm _).mem_iff.mp hp2
    exact List.mem_map_of_mem Prod.fst hp3

/-- Concrete instance of `summary_top_languages` on the spec's two-repository
scenario: Rust (200 bytes) is listed and is a key of the mapping. -/
theorem summary_top_languages_witness :
    "Rust" ∈ (runRepoLoop [repoA, repoB]).languages.map Prod.fst := by
  have h := (summary_top_languages basicTwoRepos [repoA, repoB] [] 0).2.1
  exact h "Rust" (by decide)

/-- C7 (counterexample): the profile's `repo_count` attribute comes from
`user.public_repos` independently of the fetched repository list, so a
language's count in `repo_languages` can exceed `repo_count`: with a profile
reporting zero repositories but one fetched repository containing Go, the Go
count is 1 while `repo_count` is 0. -/
theorem repo_language_count_exceeds_repo_count :
    (buildSummary basicNoRepos [repoZeroStars] [] 0).repo_languages = [("Go", 1)] ∧
    (buildSummary basicNoRepos [repoZeroStars] [] 0).repo_count = 0 ∧
    ¬ lookupD (buildSummary basicNoRepos [repoZeroStars] [] 0).repo_languages "Go"
        ≤ (buildSummary basicNoRepos [repoZeroStars] [] 0).repo_count := by
  refine ⟨rfl, rfl, by decide⟩

/-- C7 (amended): when every repository's language mapping has distinct keys
(as a Python dict guarantees), each language's count in `repo_languages`
equals the number of fetched repositories whose language mapping contains
it, and therefore never exceeds the number of fetched repositories; it can
however exceed the profile's `repo_count` attribute, which is taken from the
profile rather than from the fetched list. -/
theorem summary_repo_language_counts (basic : BasicInfo) (repos : List Repo)
    (events : List Int) (now : Int) (lang : String)
    (h : ∀ r ∈ repos, (r.languages.map Prod.fst).Nodup) :
    lookupD (buildSummary basic repos events now).repo_languages lang
        = repos.countP (fun r => decide (lang ∈ r.languages.map Prod.fst)) ∧
    lookupD (buildSummary basic repos events now).repo_languages lang
        ≤ repos.length := by
  have hent : (runRepoLoop repos).repo_languages
      = repos.flatMap (fun r =>
          r.languages.map fun lb => ⟨r.name, lb.1, r.stargazers_count, r.forks_count⟩) := by
    have h2 := loop_repo_languages repos ⟨0, 0, none, [], []⟩
    simpa [runRepoLoop] using h2
  have h1 : lookupD (buildSummary basic repos events now).repo_languages lang
      = ((runRepoLoop repos).repo_languages).countP (fun e => e.language == lang) := by
    have h2 := lookupD_countFold (fun e : RepoLangEntry => e.language)
      ((runRepoLoop repos).repo_languages) [] lang
    simpa [buildSummary, language_counts_of, lookupD] using h2
  have h3 : ((runRepoLoop repos).repo_languages).countP (fun e => e.language == lang)
      = (repos.map fun r =>
          ((r.languages.map fun lb =>
              (⟨r.name, lb.1, r.stargazers_count, r.forks_count⟩ : RepoLangEntry)).countP
            (fun e => e.language == lang))).sum := by
    rw [hent, countP_flatMap]
  have h4 : ∀ r ∈ repos,
      ((r.languages.map fun lb =>
          (⟨r.name, lb.1, r.stargazers_count, r.forks_count⟩ : RepoLangEntry)).countP
        (fun e => e.language == lang))
      = if lang ∈ r.languages.map Prod.fst then 1 else 0 := by
    intro r hr
    rw [List.countP_map]
    have h5 : r.languages.countP
        ((fun e : RepoLangEntry => e.language == lang) ∘ fun lb =>
          (⟨r.name, lb.1, r.stargazers_count, r.forks_count⟩ : RepoLangEntry))
        = (r.languages.map Prod.fst).count lang := by
      rw [count_map_countP]
      rfl
    rw [h5, count_nodup_ite _ (h r hr) lang]
  have h6 : lookupD (buildSummary basic repos events now).repo_languages lang
      = repos.countP (fun r => decide (lang ∈ r.languages.map Prod.fst)) := by
    rw [h1, h3, List.map_congr_left h4]
    have h7 : (repos.map fun r => if lang ∈ r.languages.map Prod.fst then 1 else 0)
        = repos.map fun r => if decide (lang ∈ r.languages.map Prod.fst) then 1 else 0 := by
      apply List.map_congr_left
      intro r _
      by_cases hm : lang ∈ r.languages.map Prod.fst
      · simp [hm]
      · simp [hm]
    rw [h7, sum_map_ite]
  exact ⟨h6, h6 ▸ List.countP_le_length _⟩

/-- Concrete instance of `summary_repo_language_counts` on the spec's
two-repository scenario: Go appears in both repositories. -/
theorem summary_repo_language_counts_witness :
    lookupD (buildSummary basicTwoRepos [repoA, repoB] [] 0).repo_languages "Go" = 2 := by
  have h := (summary_repo_language_counts basicTwoRepos [repoA, repoB] [] 0 "Go"
    (by decide)).1
  rw [h]
  decide

/-- C8 (counterexample): the maximum tracker starts at 0 and only updates on
a strict improvement, so when every repository has zero stars
`most_starred_repo` stays `None` instead of naming the first repository,
contradicting the claim for the non-empty list `[repoZeroStars]` whose
maximum-star repository is named "a". -/
theorem most_starred_none_on_zero_stars :
    (buildSummary basicNoRepos [repoZeroStars] [] 0).most_starred_repo = none ∧
    (buildSummary basicNoRepos [repoZeroStars] [] 0).most_starred_repo ≠ some "a" := by
  exact ⟨rfl, by decide⟩

/-- C8 (amended): when the maximum star count over the fetched list is
positive, `most_starred_repo` names the first repository attaining that
maximum (first wins ties); when every repository has zero stars - in
particular for some non-empty lists - it is `None`. -/
theorem summary_most_starred (basic : BasicInfo) (repos : List Repo)
    (events : List Int) (now : Int) :
    (0 < maxStarsOf repos →
      (buildSummary basic repos events now).most_starred_repo
        = (repos.find? fun r => r.stargazers_count == maxStarsOf repos).map Repo.name) ∧
    (maxStarsOf repos = 0 →
      (buildSummary basic repos events now).most_starred_repo = none) := by
  have hms : (buildSummary basic repos events now).most_starred_repo
      = (runRepoLoop repos).most_starred_repo := rfl
  constructor
  · intro h
    rw [hms]
    have h2 := loop_most_finds_first repos ⟨0, 0, none, [], []⟩
      (by simpa [maxStarsOf] using h)
    simpa [runRepoLoop, maxStarsOf] using h2
  · intro h
    rw [hms]
    have hall : ∀ r ∈ repos, r.stargazers_count ≤ 0 := by
      intro r hr
      have h2 := mem_le_maxFold repos 0 r hr
      rw [show repos.foldl (fun a r => max a r.stargazers_count) 0
            = maxStarsOf repos from rfl, h] at h2
      exact h2
    have h3 := loop_most_no_improve repos ⟨0, 0, none, [], []⟩ hall
    simpa [runRepoLoop] using h3.1

/-- Concrete instance of `summary_most_starred` on the spec's scenario:
repository "b" with 10 stars beats "a" with 5. -/
theorem summary_most_starred_witness :
    (buildSummary basicTwoRepos [repoA, repoB] [] 0).most_starred_repo = some "b" := by
  have h := (summary_most_starred basicTwoRepos [repoA, repoB] [] 0).1 (by decide)
  rw [h]
  decide

/-- C9 (counterexample): the event filter has no upper bound - it keeps any
timestamp strictly newer than `now - 30 days` - so an event dated one day in
the future of `now = 0` is counted, although it does not lie in a window
ending at `now`; the claim predicts empty sequences here. -/
theorem activity_keeps_future_event :
    (buildSummary basicNoRepos [] [86400] 0).activity_dates = [1] ∧
    (buildSummary basicNoRepos [] [86400] 0).activity_counts = [1] ∧
    (0 : Int) < 86400 := by
  refine ⟨rfl, rfl, by decide⟩

/-- C9 (amended): the aggregator keeps exactly the events whose timestamp is
strictly newer than `now - 30 days` (no upper bound at `now` is enforced),
groups them by calendar day, and returns `activity_dates` strictly ascending
with `activity_counts` positionally aligned; if every event is at least 30
days old both sequences are empty. -/
theorem summary_activity (basic : BasicInfo) (repos : List Repo)
    (events : List Int) (now : Int) :
    (buildSummary basic repos events now).activity_dates.Pairwise (· < ·) ∧
    (∀ d : Int, d ∈ (buildSummary basic repos events now).activity_dates
        ↔ ∃ t ∈ events, now - 30 * 86400 < t ∧ dayOf t = d) ∧
    (buildSummary basic repos events now).activity_counts
        = (buildSummary basic repos events now).activity_dates.map
            (fun d => events.countP fun t =>
              decide (now - 30 * 86400 < t) && (dayOf t == d)) ∧
    ((∀ t ∈ events, t ≤ now - 30 * 86400) →
      (buildSummary basic repos events now).activity_dates = [] ∧
      (buildSummary basic repos events now).activity_counts = []) := by
  have hd : (buildSummary basic repos events now).activity_dates
      = activity_dates_of events now := rfl
  have hc : (buildSummary basic repos events now).activity_counts
      = activity_counts_of events now := rfl
  have hperm : List.Perm (activity_dates_of events now)
      ((event_counter events now).map Prod.fst) :=
    List.perm_insertionSort _ _
  have hnodup : (activity_dates_of events now).Nodup :=
    hperm.nodup_iff.mpr (nodup_keys_event_counter events now)
  have hsorted : (activity_dates_of events now).Pairwise (fun a b : Int => a ≤ b) :=
    List.sorted_insertionSort _ _
  refine ⟨?hlt, ?hmem, ?hcnt, ?hempty⟩
  · rw [hd]
    exact (hsorted.and hnodup).imp fun hab => lt_of_le_of_ne hab.1 hab.2
  · intro d
    rw [hd, hperm.mem_iff, mem_keys_event_counter]
  · rw [hc, hd]
    unfold activity_counts_of
    apply List.map_congr_left
    intro d _
    exact lookupD_event_counter events now d
  · intro hold
    have hf : events.filter (fun t => decide (now - 30 * 86400 < t)) = [] := by
      refine List.filter_eq_nil_iff.mpr ?hall
      intro t ht
      simpa using Int.not_lt.mpr (hold t ht)
    have hcounter : event_counter events now = [] := by
      rw [event_counter_eq, hf]
      rfl
    constructor
    · rw [hd]
      unfold activity_dates_of
      rw [hcounter]
      rfl
    · rw [hc]
      unfold activity_counts_of activity_dates_of
      rw [hcounter]
      rfl

/-- Concrete instance of `summary_activity`: a single event 30 days and one
second old yields empty activity sequences. -/
theorem summary_activity_witness :
    (buildSummary basicNoRepos [] [-2592001] 0).activity_dates = [] ∧
    (buildSummary basicNoRepos [] [-2592001] 0).activity_counts = [] := by
  exact (summary_activity basicNoRepos [] [-2592001] 0).2.2.2 (by decide)

/-- C10: immediately after `put(k, v, t0)` and with no intervening put, a
`get` of `k` at any time `t1 ≥ t0` returns `v` exactly when `t1 - t0` is
below the one-hour TTL and misses once `t1 - t0` reaches it; `put` stores or
overwrites the entry unconditionally. -/
theorem cache_ttl_contract (c : TtlCache) (k : String) (v : ProfileSummary)
    (t0 t1 : Int) (h : t0 ≤ t1) :
    (t1 - t0 < CACHE_TTL → cacheGet (cachePut c k v t0) k t1 = some v) ∧
    (CACHE_TTL ≤ t1 - t0 → cacheGet (cachePut c k v t0) k t1 = none) ∧
    lookupEntry (cachePut c k v t0).entries k = some (v, t0) := by
  have hl : lookupEntry (cachePut c k v t0).entries k = some (v, t0) :=
    lookup_setEntry c.entries k v t0
  refine ⟨?hhit, ?hmiss, hl⟩
  · intro hlt
    simp [cacheGet, hl, hlt]
  · intro hge
    simp [cacheGet, hl, Int.not_lt.mpr hge]

/-- Concrete instance of `cache_ttl_contract`: a hit 1000 seconds after the
put, a miss exactly at the TTL. -/
theorem cache_ttl_contract_witness :
    cacheGet (cachePut ⟨[]⟩ "alice" sampleSummary 0) "alice" 1000 = some sampleSummary ∧
    cacheGet (cachePut ⟨[]⟩ "alice" sampleSummary 0) "alice" 3600 = none := by
  refine ⟨(cache_ttl_contract ⟨[]⟩ "alice" sampleSummary 0 1000 (by decide)).1 (by decide),
    (cache_ttl_contract ⟨[]⟩ "alice" sampleSummary 0 3600 (by decide)).2.1 (by decide)⟩
